import Mathlib

set_option maxRecDepth 8000

/-!
Verification of the contact-manager core (contact_manager.py): validation
predicates, the in-memory record store operations, and the CSV persistence
codec. Python strings are modelled as lists of characters; character-class
tests (digits, letters, whitespace, case mapping) are modelled over ASCII,
which covers every string constant the program manipulates.
-/

/-- A Python string, modelled as its list of characters. -/
abbrev PyStr := List Char

/-- Python str.isspace characters (ASCII range), used by str.strip. -/
def pyIsSpace (c : Char) : Bool :=
  c == ' ' || c == '\t' || c == '\n' || c == '\r' || c == '\x0b' || c == '\x0c'

/-- Python s.strip): drop leading and trailing whitespace. -/
def pyStrip (s : PyStr) : PyStr :=
  ((s.dropWhile pyIsSpace).reverse.dropWhile pyIsSpace).reverse

/-- Python s.lower) over ASCII: lower-case every character. -/
def pyLower (s : PyStr) : PyStr :=
  s.map Char.toLower

/-- Python s.title) over ASCII (CPython do_title): a character is
lower-cased when the previous character is cased (here: a letter) and
upper-cased otherwise; the cased-ness flag is updated at every character. -/
def pyTitleAux : Bool → PyStr → PyStr
  | _, [] => []
  | prevCased, c :: rest =>
    (if prevCased then c.toLower else c.toUpper) :: pyTitleAux c.isAlpha rest

/-- Python s.title). -/
def pyTitle (s : PyStr) : PyStr :=
  pyTitleAux false s

/-- The name normalization the program applies at lines 103, 177 and 201 of
contact_manager.py: input().strip().title(). -/
def stripTitle (s : PyStr) : PyStr :=
  pyTitle (pyStrip s)

/-- One contact record: the dictionary with keys Full Name, phone, email
built by add_contact and read back by load_contacts. -/
structure Contact where
  fullName : PyStr
  phone : PyStr
  email : PyStr
deriving DecidableEq, Repr

/-- Regex piece: consume one literal character. -/
def matchLit (c : Char) : PyStr → Option PyStr
  | [] => none
  | x :: rest => if x = c then some rest else none

/-- Regex piece: consume one digit (ASCII model of the re class backslash-d). -/
def matchDigit : PyStr → Option PyStr
  | [] => none
  | x :: rest => if x.isDigit then some rest else none

/-- Regex piece: consume n digits. -/
def matchDigits : Nat → PyStr → Option PyStr
  | 0, s => some s
  | n + 1, s => (matchDigit s).bind (matchDigits n)

/-- The body of the pattern used by is_valid_phone: an opening paren, three
digits, a closing paren, three digits, a hyphen, four digits. -/
def matchPhoneCore (s : PyStr) : Option PyStr :=
  ((((((matchLit '(' s).bind (matchDigits 3)).bind
      (matchLit ')')).bind (matchDigits 3)).bind
      (matchLit '-')).bind (matchDigits 4))

/-- is_valid_phone (contact_manager.py lines 74-85): re.match anchors the
pattern at the start, and the final dollar anchor of a Python regex (without
re.MULTILINE) matches at the end of the string or just before a single
newline at the end of the string. -/
def is_valid_phone (phone : PyStr) : Bool :=
  match matchPhoneCore phone with
  | none => false
  | some rest => rest == [] || rest == ['\n']

/-- The email check inlined in add_contact (line 111): the string contains
at least one at-sign and at least one dot. The spec names this predicate
is_valid_email. -/
def is_valid_email (s : PyStr) : Bool :=
  decide ('@' ∈ s) && decide ('.' ∈ s)

/-- add_contact (lines 103-116): the accepted inputs are the full name
(stripped and title-cased at read time), the stripped phone and the stripped
email; the stored email is lower-cased. The interactive re-prompt loops
guarantee that the accepted phone satisfies is_valid_phone and the accepted
email contains an at-sign and a dot; theorems carry those as hypotheses. -/
def add_contact (contacts : List Contact) (nameInput phoneInput emailInput : PyStr) :
    List Contact :=
  contacts ++ [Contact.mk (stripTitle nameInput) (pyStrip phoneInput)
    (pyLower (pyStrip emailInput))]

/-- search_contact (lines 141-161): the search term is stripped and
lower-cased; a contact matches when the term occurs as a substring of the
lower-cased full name; the matches are reported in store order. -/
def search_contact (contacts : List Contact) (termInput : PyStr) : List Contact :=
  contacts.filter (fun c => decide (pyLower (pyStrip termInput) <:+: pyLower c.fullName))

/-- Remove the first contact whose full name equals the given (already
normalized) name. In the source, contacts.remove(contact) deletes the first
list element equal to the matched dictionary; since the matched element is
the first one with that full name, no earlier element can be equal to it,
so the element deleted is exactly the first name match. -/
def removeFirstByName : List Contact → PyStr → List Contact × Bool
  | [], _ => ([], false)
  | c :: cs, name =>
    if c.fullName = name then (cs, true)
    else
      let r := removeFirstByName cs name
      (c :: r.fst, r.snd)

/-- remove_contact (lines 164-183): the requested name is stripped and
title-cased, then the first exact match is removed; the Bool reports
whether a removal occurred (the printed success or not-found message). -/
def remove_contact (contacts : List Contact) (nameInput : PyStr) :
    List Contact × Bool :=
  removeFirstByName contacts (stripTitle nameInput)

/-- Replace the phone field of the first contact whose full name equals the
given (already normalized) name. -/
def updateFirstByName : List Contact → PyStr → PyStr → List Contact × Bool
  | [], _, _ => ([], false)
  | c :: cs, name, newPhone =>
    if c.fullName = name then (Contact.mk c.fullName newPhone c.email :: cs, true)
    else
      let r := updateFirstByName cs name newPhone
      (c :: r.fst, r.snd)

/-- update_contact (lines 186-211): the requested name is stripped and
title-cased; on the first exact match the phone field is replaced by the
stripped accepted new phone (the interactive loop guarantees it satisfies
is_valid_phone); the Bool reports whether an update occurred. -/
def update_contact (contacts : List Contact) (nameInput newPhoneInput : PyStr) :
    List Contact × Bool :=
  updateFirstByName contacts (stripTitle nameInput) (pyStrip newPhoneInput)

/-- Python csv QUOTE_MINIMAL: a field is quoted when it contains the
delimiter, the quote character, or a character of the line terminator. -/
def needsQuote (f : PyStr) : Bool :=
  f.any (fun c => c == ',' || c == '"' || c == '\r' || c == '\n')

/-- Double every quote character inside a quoted field. -/
def escQuotes : PyStr → PyStr
  | [] => []
  | c :: rest => if c = '"' then '"' :: '"' :: escQuotes rest else c :: escQuotes rest

/-- Encode one CSV field (excel dialect, QUOTE_MINIMAL). -/
def encField (f : PyStr) : PyStr :=
  if needsQuote f then '"' :: (escQuotes f ++ ['"']) else f

/-- Encode one CSV row: fields joined by commas, no terminator. -/
def encRow : List PyStr → PyStr
  | [] => []
  | [f] => encField f
  | f :: rest => encField f ++ ',' :: encRow rest

/-- The csv.DictWriter line terminator of the excel dialect. -/
def crlf : PyStr := ['\r', '\n']

/-- The fieldnames of save_contacts (line 66). -/
def fieldnames : List PyStr := ["Full Name".toList, "phone".toList, "email".toList]

/-- The data row csv.DictWriter writes for one contact: its three fields in
fieldnames order. -/
def contactRow (c : Contact) : PyStr :=
  encRow [c.fullName, c.phone, c.email]

/-- save_contacts (lines 51-71): the header row followed by one row per
contact, in store order, each row terminated by CRLF. The destination file
is opened in write mode with newline set to the empty string, so the text
produced here is the exact file content (full overwrite). -/
def save_contacts (contacts : List Contact) : PyStr :=
  encRow fieldnames ++ crlf ++ (contacts.map (fun c => contactRow c ++ crlf)).flatten

/-- Universal-newline translation performed by opening the file in text
mode for reading: CRLF and a lone CR both become LF. -/
def univNewlines : List Char → List Char
  | [] => []
  | [c] => if c = '\r' then ['\n'] else [c]
  | c :: c2 :: rest =>
    if c = '\r' then
      if c2 = '\n' then '\n' :: univNewlines rest
      else '\n' :: univNewlines (c2 :: rest)
    else c :: univNewlines (c2 :: rest)

/-- Split a text on LF; the result always has one more part than there are
LF characters (Python file iteration then treats a trailing empty part as
no line). -/
def splitNl : List Char → List (List Char)
  | [] => [[]]
  | c :: rest =>
    if c = '\n' then [] :: splitNl rest
    else
      match splitNl rest with
      | [] => [[c]]
      | l :: ls => (c :: l) :: ls

/-- The lines of a file as iterated by the csv reader (terminators removed;
a trailing empty part after the final LF is not a line). -/
def fileLines (t : List Char) : List (List Char) :=
  if (splitNl t).getLast? = some [] then (splitNl t).dropLast else splitNl t

/-- Parser states of the csv reader field scanner: start of field, inside
an unquoted field, inside a quoted field, and just after a closing quote. -/
inductive CsvSt
  | sf
  | unq
  | qd
  | aq
deriving DecidableEq

/-- One line of the csv reader (excel dialect, non-strict): fields split on
commas; a field starting with a quote is read in quoted mode, where a
doubled quote is a literal quote; characters after a closing quote are
appended to the field (non-strict behaviour); a quote inside an unquoted
field is kept literally. Quoted fields do not span lines here: the
round-trip theorem's hypothesis excludes CR and LF inside fields, so every
encoded field stays on one line. -/
def parseGo : CsvSt → List Char → List Char → List PyStr
  | .sf, acc, [] => [acc.reverse]
  | .sf, acc, c :: rest =>
    if c = '"' then parseGo .qd acc rest
    else if c = ',' then acc.reverse :: parseGo .sf [] rest
    else parseGo .unq (c :: acc) rest
  | .unq, acc, [] => [acc.reverse]
  | .unq, acc, c :: rest =>
    if c = ',' then acc.reverse :: parseGo .sf [] rest
    else parseGo .unq (c :: acc) rest
  | .qd, acc, [] => [acc.reverse]
  | .qd, acc, c :: rest =>
    if c = '"' then parseGo .aq acc rest
    else parseGo .qd (c :: acc) rest
  | .aq, acc, [] => [acc.reverse]
  | .aq, acc, c :: rest =>
    if c = '"' then parseGo .qd ('"' :: acc) rest
    else if c = ',' then acc.reverse :: parseGo .sf [] rest
    else parseGo .unq (c :: acc) rest

/-- Parse one line into its fields; a blank line is the empty row, which
csv.DictReader skips. -/
def parseLine (l : List Char) : List PyStr :=
  if l = [] then [] else parseGo .sf [] l

/-- A three-field data row becomes a Contact keyed by the header row
Full Name, phone, email (the spec's decode assumes exactly three columns
matching the recognized field names; rows of any other width build partial
dictionaries the spec leaves undefined, and no claim exercises them). -/
def rowToContact : List PyStr → Option Contact
  | [a, b, c] => some (Contact.mk a b c)
  | _ => none

/-- Decode the text of an existing contacts file: universal-newline
translation, line splitting, csv parsing; the first row is consumed as the
header (csv.DictReader fieldnames), blank rows are skipped, and each
remaining three-field row becomes one Contact. -/
def decodeText (t : List Char) : List Contact :=
  match (fileLines (univNewlines t)).map parseLine with
  | [] => []
  | _hdr :: rows => (rows.filter (fun r => !r.isEmpty)).filterMap rowToContact

/-- load_contacts (lines 22-48): none models an absent file
(FileNotFoundError), which is caught, reported with a printed warning, and
yields the empty store; some t models a file whose raw content is t. -/
def load_contacts : Option (List Char) → List Contact
  | none => []
  | some t => decodeText t

/-- The phone predicate as the spec words it: a full-string match of the
pattern, no leading or trailing characters of any kind. Stated for
comparison with is_valid_phone. -/
def specPhoneFullMatch (s : PyStr) : Bool :=
  matchPhoneCore s == some []

/-- The shape of a string fully matching the phone pattern: an opening
paren, three digits, a closing paren, three digits, a hyphen, four digits,
and nothing else. -/
def PhoneShape (s : PyStr) : Prop :=
  ∃ a b c d e f g h i j : Char,
    (a.isDigit ∧ b.isDigit ∧ c.isDigit ∧ d.isDigit ∧ e.isDigit ∧
     f.isDigit ∧ g.isDigit ∧ h.isDigit ∧ i.isDigit ∧ j.isDigit) ∧
    s = ['(', a, b, c, ')', d, e, f, '-', g, h, i, j]

/-- Modelled from the spec words for normalize_name: title-case each
whitespace-separated token, first letter of the token upper, remainder
lower, preserving spacing. Stated for comparison with stripTitle. -/
def specTitleWsAux : Bool → PyStr → PyStr
  | _, [] => []
  | atStart, c :: rest =>
    if pyIsSpace c then c :: specTitleWsAux true rest
    else (if atStart then c.toUpper else c.toLower) :: specTitleWsAux false rest

/-- Modelled from the spec words for normalize_name: strip, then title-case
whitespace-separated tokens. -/
def specNormalizeNameWs (s : PyStr) : PyStr :=
  specTitleWsAux true (pyStrip s)

/-- Whether an optional preceding character is a letter. -/
def prevIsAlpha : Option Char → Bool
  | none => false
  | some p => p.isAlpha

/-- The amended normalization target: a character is upper-cased when not
preceded by a letter and lower-cased when preceded by one, so the words
being title-cased are the maximal runs of letters, not the
whitespace-separated tokens. -/
def titleByRuns (s : PyStr) : PyStr :=
  (s.zip (none :: s.map some)).map
    (fun cp => if prevIsAlpha cp.snd then cp.fst.toLower else cp.fst.toUpper)

/-- The invariant the spec asserts for the store. -/
def ValidStore (s : List Contact) : Prop :=
  ∀ c ∈ s, is_valid_phone c.phone = true ∧ is_valid_email c.email = true

/-- One interactive mutation of the store: an add whose accepted phone and
email passed the re-prompt loops of add_contact, an update whose accepted
phone passed the loop of update_contact, or a remove. -/
inductive SessionStep : List Contact → List Contact → Prop
  | add (s : List Contact) (n p e : PyStr)
      (hp : is_valid_phone (pyStrip p) = true)
      (he : '@' ∈ pyStrip e ∧ '.' ∈ pyStrip e) :
      SessionStep s (add_contact s n p e)
  | update (s : List Contact) (n p : PyStr)
      (hp : is_valid_phone (pyStrip p) = true) :
      SessionStep s (update_contact s n p).fst
  | remove (s : List Contact) (n : PyStr) :
      SessionStep s (remove_contact s n).fst

/-- A persisted file whose single data row carries a phone that fails
validation. -/
def badFileText : PyStr := "Full Name,phone,email\r\nBob,123,bob@x.com\r\n".toList

/-- A field with no carriage return and no line feed: the delimiter-breaking
characters beyond those the quoting rule handles (commas and quotes are
quoted and round-trip; embedded CR or LF would cross the text-mode newline
translation and the line-by-line reader). -/
def noCRLF (f : PyStr) : Prop := '\r' ∉ f ∧ '\n' ∉ f

instance (f : PyStr) : Decidable (noCRLF f) := by
  unfold noCRLF
  infer_instance

/-- Removing by a name that matches nothing leaves the list unchanged and
reports false. -/
theorem removeFirstByName_not_found (s : List Contact) (name : PyStr)
    (h : ∀ c ∈ s, c.fullName ≠ name) :
    removeFirstByName s name = (s, false) := by
  induction s with
  | nil => rfl
  | cons c cs ih =>
    have hc : c.fullName ≠ name := h c (List.mem_cons_self c cs)
    have ihh := ih (fun x hx => h x (List.mem_cons_of_mem c hx))
    simp [removeFirstByName, hc, ihh]

/-- Updating by a name that matches nothing leaves the list unchanged and
reports false. -/
theorem updateFirstByName_not_found (s : List Contact) (name p : PyStr)
    (h : ∀ c ∈ s, c.fullName ≠ name) :
    updateFirstByName s name p = (s, false) := by
  induction s with
  | nil => rfl
  | cons c cs ih =>
    have hc : c.fullName ≠ name := h c (List.mem_cons_self c cs)
    have ihh := ih (fun x hx => h x (List.mem_cons_of_mem c hx))
    simp [updateFirstByName, hc, ihh]

/-- Removing by name deletes exactly the first match. -/
theorem removeFirstByName_append (pre post : List Contact) (c : Contact) (name : PyStr)
    (hpre : ∀ d ∈ pre, d.fullName ≠ name) (hc : c.fullName = name) :
    removeFirstByName (pre ++ c :: post) name = (pre ++ post, true) := by
  induction pre with
  | nil => simp [removeFirstByName, hc]
  | cons d ds ih =>
    have hd : d.fullName ≠ name := hpre d (List.mem_cons_self d ds)
    have ihh := ih (fun x hx => hpre x (List.mem_cons_of_mem d hx))
    simp [removeFirstByName, hd, ihh]

/-- Updating by name rewrites the phone of exactly the first match. -/
theorem updateFirstByName_append (pre post : List Contact) (c : Contact) (name p : PyStr)
    (hpre : ∀ d ∈ pre, d.fullName ≠ name) (hc : c.fullName = name) :
    updateFirstByName (pre ++ c :: post) name p =
      (pre ++ Contact.mk c.fullName p c.email :: post, true) := by
  induction pre with
  | nil => simp [updateFirstByName, hc]
  | cons d ds ih =>
    have hd : d.fullName ≠ name := hpre d (List.mem_cons_self d ds)
    have ihh := ih (fun x hx => hpre x (List.mem_cons_of_mem d hx))
    simp [updateFirstByName, hd, ihh]

/-- C7: when the persisted file is absent, decoding yields the empty store;
load_contacts is total, so no failure reaches the caller (the
FileNotFoundError is caught inside it and only a warning is printed). -/
theorem load_absent_file_empty : load_contacts none = [] := rfl

/-- C5: remove-by-exact-name removes exactly the first contact in insertion
order whose full name equals the normalized requested name, reports that a
removal occurred, and leaves all other contacts in place. -/
theorem remove_contact_first_match (pre post : List Contact) (c : Contact)
    (nameInput : PyStr)
    (hpre : ∀ d ∈ pre, d.fullName ≠ stripTitle nameInput)
    (hc : c.fullName = stripTitle nameInput) :
    remove_contact (pre ++ c :: post) nameInput = (pre ++ post, true) :=
  removeFirstByName_append pre post c (stripTitle nameInput) hpre hc

/-- Witness for C5: on a store with two contacts named John Smith, only the
first-inserted one is removed and the second remains. -/
theorem remove_contact_first_match_w :
    remove_contact
      [Contact.mk ("John Smith".toList) ("(111)111-1111".toList) ("j@a.com".toList),
       Contact.mk ("John Smith".toList) ("(222)222-2222".toList) ("j@b.com".toList)]
      ("john smith".toList) =
    ([Contact.mk ("John Smith".toList) ("(222)222-2222".toList) ("j@b.com".toList)], true) :=
  remove_contact_first_match []
    [Contact.mk ("John Smith".toList) ("(222)222-2222".toList) ("j@b.com".toList)]
    (Contact.mk ("John Smith".toList) ("(111)111-1111".toList) ("j@a.com".toList))
    ("john smith".toList) (by simp) (by decide)

/-- C6: update-by-exact-name replaces only the phone field of the first
contact whose full name equals the normalized requested name, reports that
an update occurred, and leaves that contact's name and email and every
other contact unchanged. -/
theorem update_contact_first_match (pre post : List Contact) (c : Contact)
    (nameInput newPhoneInput : PyStr)
    (_hvalid : is_valid_phone (pyStrip newPhoneInput) = true)
    (hpre : ∀ d ∈ pre, d.fullName ≠ stripTitle nameInput)
    (hc : c.fullName = stripTitle nameInput) :
    update_contact (pre ++ c :: post) nameInput newPhoneInput =
      (pre ++ Contact.mk c.fullName (pyStrip newPhoneInput) c.email :: post, true) :=
  updateFirstByName_append pre post c (stripTitle nameInput) (pyStrip newPhoneInput) hpre hc

/-- Witness for C6: a concrete update changes one phone and nothing else. -/
theorem update_contact_first_match_w :
    update_contact
      [Contact.mk ("Ann Lee".toList) ("(111)111-1111".toList) ("a@b.com".toList),
       Contact.mk ("Ann Lee".toList) ("(222)222-2222".toList) ("a@c.com".toList)]
      ("  ann lee ".toList) ("(999)888-7777".toList) =
    ([Contact.mk ("Ann Lee".toList) ("(999)888-7777".toList) ("a@b.com".toList),
      Contact.mk ("Ann Lee".toList) ("(222)222-2222".toList) ("a@c.com".toList)], true) :=
  update_contact_first_match []
    [Contact.mk ("Ann Lee".toList) ("(222)222-2222".toList) ("a@c.com".toList)]
    (Contact.mk ("Ann Lee".toList) ("(111)111-1111".toList) ("a@b.com".toList))
    ("  ann lee ".toList) ("(999)888-7777".toList) (by decide) (by simp) (by decide)

/-- C9: when no contact has the normalized requested name, remove and
update both report a not-found outcome and leave the store unchanged. -/
theorem missing_name_no_change (s : List Contact) (nameInput newPhoneInput : PyStr)
    (h : ∀ c ∈ s, c.fullName ≠ stripTitle nameInput) :
    remove_contact s nameInput = (s, false) ∧
    update_contact s nameInput newPhoneInput = (s, false) :=
  ⟨removeFirstByName_not_found s (stripTitle nameInput) h,
   updateFirstByName_not_found s (stripTitle nameInput) (pyStrip newPhoneInput) h⟩

/-- Witness for C9: a miss on a concrete one-contact store. -/
theorem missing_name_no_change_w :
    remove_contact [Contact.mk ("Ann Lee".toList) ("(111)111-1111".toList) ("a@b.com".toList)]
      ("bob".toList) =
      ([Contact.mk ("Ann Lee".toList) ("(111)111-1111".toList) ("a@b.com".toList)], false) ∧
    update_contact [Contact.mk ("Ann Lee".toList) ("(111)111-1111".toList) ("a@b.com".toList)]
      ("bob".toList) ("(999)888-7777".toList) =
      ([Contact.mk ("Ann Lee".toList) ("(111)111-1111".toList) ("a@b.com".toList)], false) :=
  missing_name_no_change
    [Contact.mk ("Ann Lee".toList) ("(111)111-1111".toList) ("a@b.com".toList)]
    ("bob".toList) ("(999)888-7777".toList) (by decide)

/-- C8: search reports exactly the ordered subsequence, in store order, of
the contacts whose lower-cased full name contains the lower-cased stripped
search term as a substring. -/
theorem search_contact_characterization (s : List Contact) (termInput : PyStr) :
    (search_contact s termInput).Sublist s ∧
    ∀ c, c ∈ search_contact s termInput ↔
      c ∈ s ∧ ∃ l r, pyLower c.fullName = l ++ pyLower (pyStrip termInput) ++ r := by
  constructor
  · exact List.filter_sublist s
  · intro c
    simp only [search_contact, List.mem_filter, decide_eq_true_eq]
    constructor
    · rintro ⟨hmem, l, r, heq⟩
      exact ⟨hmem, l, r, heq.symm⟩
    · rintro ⟨hmem, l, r, heq⟩
      exact ⟨hmem, l, r, heq.symm⟩

/-- C10: a search term that strips to the empty string matches every
contact, because the empty string is a substring of every name; search has
no minimum-length guard. -/
theorem empty_search_matches_all (s : List Contact) (termInput : PyStr)
    (h : pyStrip termInput = []) :
    search_contact s termInput = s := by
  unfold search_contact
  rw [h]
  refine List.filter_eq_self.mpr (fun c _ => ?_)
  simp [pyLower, List.nil_infix]

/-- Witness for C10: a whitespace search term returns the whole store. -/
theorem empty_search_matches_all_w :
    search_contact
      [Contact.mk ("John Smith".toList) ("(111)111-1111".toList) ("j@a.com".toList),
       Contact.mk ("Jane Johnson".toList) ("(222)222-2222".toList) ("j@b.com".toList)]
      ("  ".toList) =
    [Contact.mk ("John Smith".toList) ("(111)111-1111".toList) ("j@a.com".toList),
     Contact.mk ("Jane Johnson".toList) ("(222)222-2222".toList) ("j@b.com".toList)] :=
  empty_search_matches_all
    [Contact.mk ("John Smith".toList) ("(111)111-1111".toList) ("j@a.com".toList),
     Contact.mk ("Jane Johnson".toList) ("(222)222-2222".toList) ("j@b.com".toList)]
    ("  ".toList) (by decide)

/-- Inversion for the literal matcher. -/
theorem matchLit_eq_some {c : Char} {s r : PyStr} :
    matchLit c s = some r ↔ s = c :: r := by
  cases s with
  | nil => simp [matchLit]
  | cons x rest => by_cases h : x = c <;> simp [matchLit, h]

/-- Inversion for the digit matcher. -/
theorem matchDigit_eq_some {s r : PyStr} :
    matchDigit s = some r ↔ ∃ a : Char, a.isDigit = true ∧ s = a :: r := by
  cases s with
  | nil => simp [matchDigit]
  | cons x rest =>
    by_cases h : x.isDigit
    · simp only [matchDigit, if_pos h, Option.some.injEq]
      constructor
      · rintro rfl
        exact ⟨x, h, rfl⟩
      · rintro ⟨a, _, heq⟩
        injection heq with h1 h2
    · simp only [matchDigit, if_neg h]
      constructor
      · rintro ⟨⟩
      · rintro ⟨a, ha, heq⟩
        injection heq with h1 h2
        exact absurd (h1 ▸ ha) h

/-- Inversion for the repeated digit matcher. -/
theorem matchDigits_eq_some : ∀ (n : Nat) (s r : PyStr),
    matchDigits n s = some r ↔
      ∃ ds : PyStr, ds.length = n ∧ (∀ d ∈ ds, d.isDigit = true) ∧ s = ds ++ r := by
  intro n
  induction n with
  | zero =>
    intro s r
    simp only [matchDigits, Option.some.injEq]
    constructor
    · rintro rfl
      exact ⟨[], rfl, by simp, rfl⟩
    · rintro ⟨ds, hlen, _, rfl⟩
      rw [List.length_eq_zero.mp hlen, List.nil_append]
  | succ k ih =>
    intro s r
    simp only [matchDigits, Option.bind_eq_some, matchDigit_eq_some]
    constructor
    · rintro ⟨s1, ⟨a, ha, rfl⟩, hrest⟩
      obtain ⟨ds, hlen, hdig, rfl⟩ := (ih s1 r).mp hrest
      refine ⟨a :: ds, by simp [hlen], ?_, rfl⟩
      intro d hd
      rcases List.mem_cons.mp hd with rfl | hd2
      · exact ha
      · exact hdig d hd2
    · rintro ⟨ds, hlen, hdig, rfl⟩
      cases ds with
      | nil => simp at hlen
      | cons a ds2 =>
        refine ⟨ds2 ++ r, ⟨a, hdig a (List.mem_cons_self a ds2), rfl⟩, ?_⟩
        exact (ih _ r).mpr
          ⟨ds2, by simpa using hlen, fun d hd => hdig d (List.mem_cons_of_mem a hd), rfl⟩

/-- Inversion for the whole phone pattern body: it consumes exactly a
phone-shaped prefix. -/
theorem matchPhoneCore_eq_some {s r : PyStr} :
    matchPhoneCore s = some r ↔ ∃ core, PhoneShape core ∧ s = core ++ r := by
  constructor
  · intro hm
    simp only [matchPhoneCore] at hm
    obtain ⟨s5, h5, h6⟩ := Option.bind_eq_some.mp hm
    obtain ⟨s4, h4, h5b⟩ := Option.bind_eq_some.mp h5
    obtain ⟨s3, h3, h4b⟩ := Option.bind_eq_some.mp h4
    obtain ⟨s2, h2, h3b⟩ := Option.bind_eq_some.mp h3
    obtain ⟨s1, h1, h2b⟩ := Option.bind_eq_some.mp h2
    rw [matchLit_eq_some] at h1 h3b h5b
    rw [matchDigits_eq_some] at h2b h4b h6
    subst h1
    obtain ⟨ds1, hl1, hd1, rfl⟩ := h2b
    subst h3b
    obtain ⟨ds2, hl2, hd2, rfl⟩ := h4b
    subst h5b
    obtain ⟨ds3, hl3, hd3, rfl⟩ := h6
    obtain ⟨a, b, c, rfl⟩ := List.length_eq_three.mp hl1
    obtain ⟨d, e, f, rfl⟩ := List.length_eq_three.mp hl2
    cases ds3 with
    | nil => simp at hl3
    | cons g ds4 =>
      obtain ⟨x, y, z, rfl⟩ := List.length_eq_three.mp (by simpa using hl3)
      refine ⟨['(', a, b, c, ')', d, e, f, '-', g, x, y, z], ?_, by simp⟩
      refine ⟨a, b, c, d, e, f, g, x, y, z, ?_, rfl⟩
      refine ⟨hd1 a (by simp), hd1 b (by simp), hd1 c (by simp), hd2 d (by simp),
        hd2 e (by simp), hd2 f (by simp), hd3 g (by simp), hd3 x (by simp),
        hd3 y (by simp), hd3 z (by simp)⟩
  · rintro ⟨core, ⟨a, b, c, d, e, f, g, x, y, z, hdig, rfl⟩, rfl⟩
    obtain ⟨pa, pb, pc, pd, pe, pf, pg, px, py, pz⟩ := hdig
    simp [matchPhoneCore, matchLit, matchDigits, matchDigit,
      pa, pb, pc, pd, pe, pf, pg, px, py, pz]

/-- Unfold is_valid_phone into its match result. -/
theorem is_valid_phone_eq_true_iff {s : PyStr} :
    is_valid_phone s = true ↔
      ∃ rest, matchPhoneCore s = some rest ∧ (rest = [] ∨ rest = ['\n']) := by
  unfold is_valid_phone
  cases hm : matchPhoneCore s with
  | none => simp
  | some rest => simp

/-- C3 counterexample: the claim says any string with extra characters
after the pattern is rejected, but a single trailing newline is accepted by
the code, because the dollar anchor of a Python regex also matches just
before a terminal newline. -/
theorem phone_trailing_newline_cx :
    is_valid_phone ("(555)123-4567\n".toList) = true ∧
    specPhoneFullMatch ("(555)123-4567\n".toList) = false := by
  decide

/-- C3 (amended): is_valid_phone accepts exactly the full-pattern matches
and the full-pattern matches followed by one trailing newline; every other
deviation (missing parens, wrong digit counts, any other extra characters)
is rejected. -/
theorem is_valid_phone_characterization (s : PyStr) :
    is_valid_phone s = true ↔
      PhoneShape s ∨ ∃ core, PhoneShape core ∧ s = core ++ ['\n'] := by
  rw [is_valid_phone_eq_true_iff]
  constructor
  · rintro ⟨rest, hm, hrest⟩
    obtain ⟨core, hshape, rfl⟩ := matchPhoneCore_eq_some.mp hm
    rcases hrest with rfl | rfl
    · left
      simpa using hshape
    · right
      exact ⟨core, hshape, rfl⟩
  · rintro (hs | ⟨core, hshape, rfl⟩)
    · exact ⟨[], matchPhoneCore_eq_some.mpr ⟨s, hs, by simp⟩, Or.inl rfl⟩
    · exact ⟨['\n'], matchPhoneCore_eq_some.mpr ⟨core, hshape, rfl⟩, Or.inr rfl⟩

/-- The flag-threading title function equals the position-based
formulation: a character is lower-cased exactly when preceded by a letter. -/
theorem pyTitleAux_eq_zip_form (t : PyStr) (prev : Option Char) :
    pyTitleAux (prevIsAlpha prev) t =
      (t.zip (prev :: t.map some)).map
        (fun cp => if prevIsAlpha cp.snd then cp.fst.toLower else cp.fst.toUpper) := by
  induction t generalizing prev with
  | nil => rfl
  | cons c rest ih =>
    simp only [pyTitleAux, List.map_cons, List.zip_cons_cons]
    exact congrArg _ (ih (some c))

/-- C4 counterexample: the claim says normalization title-cases each
whitespace-separated token, first letter upper and remainder lower, but the
code restarts upper-casing after any non-letter: on john-smith the code
produces John-Smith while the claimed rule produces John-smith. -/
theorem normalize_name_hyphen_cx :
    stripTitle ("john-smith".toList) = ("John-Smith".toList) ∧
    specNormalizeNameWs ("john-smith".toList) = ("John-smith".toList) ∧
    ("John-Smith".toList) ≠ ("John-smith".toList) := by
  decide

/-- C4 (amended): normalization trims the input and then title-cases each
maximal run of letters (a character is upper-cased when not preceded by a
letter and lower-cased otherwise), preserving spacing and all non-letters;
in particular it still maps the spec's example to John   Smith. -/
theorem normalize_name_title_runs :
    (∀ s, stripTitle s = titleByRuns (pyStrip s)) ∧
    stripTitle ("  john   SMITH ".toList) = ("John   Smith".toList) := by
  constructor
  · intro s
    exact pyTitleAux_eq_zip_form (pyStrip s) none
  · decide

/-- Every element surviving a removal was in the original store. -/
theorem mem_removeFirstByName (s : List Contact) (name : PyStr) (c : Contact)
    (h : c ∈ (removeFirstByName s name).fst) : c ∈ s := by
  induction s with
  | nil => cases h
  | cons d ds ih =>
    by_cases hd : d.fullName = name
    · simp only [removeFirstByName, if_pos hd] at h
      exact List.mem_cons_of_mem d h
    · simp only [removeFirstByName, if_neg hd] at h
      rcases List.mem_cons.mp h with rfl | h2
      · exact List.mem_cons_self _ _
      · exact List.mem_cons_of_mem d (ih h2)

/-- Every element of an updated store is an original element or an original
element with only its phone field replaced by the new phone. -/
theorem mem_updateFirstByName (s : List Contact) (name p : PyStr) (c : Contact)
    (h : c ∈ (updateFirstByName s name p).fst) :
    c ∈ s ∨ ∃ d ∈ s, c = Contact.mk d.fullName p d.email := by
  induction s with
  | nil => cases h
  | cons d ds ih =>
    by_cases hd : d.fullName = name
    · simp only [updateFirstByName, if_pos hd] at h
      rcases List.mem_cons.mp h with rfl | h2
      · exact Or.inr ⟨d, List.mem_cons_self d ds, rfl⟩
      · exact Or.inl (List.mem_cons_of_mem d h2)
    · simp only [updateFirstByName, if_neg hd] at h
      rcases List.mem_cons.mp h with rfl | h2
      · exact Or.inl (List.mem_cons_self _ _)
      · rcases ih h2 with h3 | ⟨e, he, hc⟩
        · exact Or.inl (List.mem_cons_of_mem d h3)
        · exact Or.inr ⟨e, List.mem_cons_of_mem d he, hc⟩

/-- Lower-casing preserves the email check: the at-sign and the dot are
unchanged by case mapping. -/
theorem is_valid_email_lower (e : PyStr) (h1 : '@' ∈ e) (h2 : '.' ∈ e) :
    is_valid_email (pyLower e) = true := by
  simp only [is_valid_email, Bool.and_eq_true, decide_eq_true_eq]
  constructor
  · have h3 : Char.toLower '@' = '@' := by decide
    have h4 := List.mem_map_of_mem Char.toLower h1
    rw [h3] at h4
    simpa [pyLower] using h4
  · have h3 : Char.toLower '.' = '.' := by decide
    have h4 := List.mem_map_of_mem Char.toLower h2
    rw [h3] at h4
    simpa [pyLower] using h4

/-- C1 counterexample: decoding the persisted file performs no validation,
so a reachable store (the one loaded from this file) holds a contact whose
phone fails the validity predicate, against the claimed invariant. -/
theorem load_skips_validation_cx :
    load_contacts (some badFileText) =
      [Contact.mk ("Bob".toList) ("123".toList) ("bob@x.com".toList)] ∧
    is_valid_phone ("123".toList) = false := by
  decide

/-- C1 (amended): add and update validate fields before they enter the
store, so every store reachable from the empty store through the
interactive operations (add, update, remove) satisfies the phone and email
validity predicates; decoding the persisted file, by contrast, inserts its
rows unvalidated. -/
theorem session_ops_preserve_validity (s : List Contact)
    (h : Relation.ReflTransGen SessionStep [] s) : ValidStore s := by
  induction h with
  | refl =>
    intro c hc
    cases hc
  | tail hab hbc ih =>
    cases hbc with
    | add n p e hp he =>
      intro c hc
      simp only [add_contact] at hc
      rcases List.mem_append.mp hc with h1 | h2
      · exact ih c h1
      · obtain rfl := List.mem_singleton.mp h2
        exact ⟨hp, is_valid_email_lower _ he.1 he.2⟩
    | update n p hp =>
      intro c hc
      simp only [update_contact] at hc
      rcases mem_updateFirstByName _ _ _ c hc with h1 | ⟨d, hd2, rfl⟩
      · exact ih c h1
      · exact ⟨hp, (ih d hd2).2⟩
    | remove n =>
      intro c hc
      simp only [remove_contact] at hc
      exact ih c (mem_removeFirstByName _ _ c hc)

/-- Witness for the C1 amended theorem: one validated add from the empty
store yields a valid store. -/
theorem session_ops_preserve_validity_w :
    ValidStore (add_contact [] ("ann lee".toList) ("(555)123-4567".toList)
      ("Ann@Mail.com".toList)) :=
  session_ops_preserve_validity _
    (Relation.ReflTransGen.single
      (SessionStep.add [] ("ann lee".toList) ("(555)123-4567".toList)
        ("Ann@Mail.com".toList) (by decide) (by decide)))

/-- An unquoted field with no comma is consumed up to the next comma. -/
theorem parseGo_unq_comma (f : PyStr) (acc rest : List Char) (h : ',' ∉ f) :
    parseGo .unq acc (f ++ ',' :: rest) =
      (acc.reverse ++ f) :: parseGo .sf [] rest := by
  induction f generalizing acc with
  | nil => simp [parseGo]
  | cons c f2 ih =>
    have hc : c ≠ ',' := by
      rintro rfl
      exact h (List.mem_cons_self _ _)
    have ih2 := ih (c :: acc) (fun hm => h (List.mem_cons_of_mem c hm))
    rw [List.cons_append]
    simp only [parseGo, if_neg hc]
    rw [ih2]
    simp

/-- An unquoted field with no comma at the end of the line closes the
line. -/
theorem parseGo_unq_last (f : PyStr) (acc : List Char) (h : ',' ∉ f) :
    parseGo .unq acc f = [acc.reverse ++ f] := by
  induction f generalizing acc with
  | nil => simp [parseGo]
  | cons c f2 ih =>
    have hc : c ≠ ',' := by
      rintro rfl
      exact h (List.mem_cons_self _ _)
    have ih2 := ih (c :: acc) (fun hm => h (List.mem_cons_of_mem c hm))
    simp only [parseGo, if_neg hc]
    rw [ih2]
    simp

/-- Step: a quote inside a quoted field moves to the after-quote state. -/
theorem parseGo_qd_quote (acc l : List Char) :
    parseGo .qd acc ('"' :: l) = parseGo .aq acc l := by
  simp [parseGo]

/-- Step: any other character inside a quoted field is accumulated. -/
theorem parseGo_qd_other (c : Char) (acc l : List Char) (h : c ≠ '"') :
    parseGo .qd acc (c :: l) = parseGo .qd (c :: acc) l := by
  simp [parseGo, h]

/-- Step: a quote after a quote is the escaped literal quote. -/
theorem parseGo_aq_quote (acc l : List Char) :
    parseGo .aq acc ('"' :: l) = parseGo .qd ('"' :: acc) l := by
  simp [parseGo]

/-- Step: a comma after the closing quote ends the field. -/
theorem parseGo_aq_comma (acc l : List Char) :
    parseGo .aq acc (',' :: l) = acc.reverse :: parseGo .sf [] l := by
  simp [parseGo]

/-- Scanning the escaped body of a quoted field accumulates exactly the
original field and stops at the closing quote. -/
theorem parseGo_qd_escQuotes (f : PyStr) (acc rest : List Char) :
    parseGo .qd acc (escQuotes f ++ '"' :: rest) =
      parseGo .aq (f.reverse ++ acc) rest := by
  induction f generalizing acc with
  | nil =>
    rw [show escQuotes [] = [] from rfl, List.nil_append, parseGo_qd_quote]
    simp
  | cons c f2 ih =>
    by_cases hc : c = '"'
    · subst hc
      rw [show escQuotes ('"' :: f2) = '"' :: '"' :: escQuotes f2 from by
          simp [escQuotes],
        List.cons_append, List.cons_append, parseGo_qd_quote, parseGo_aq_quote,
        ih ('"' :: acc)]
      simp
    · rw [show escQuotes (c :: f2) = c :: escQuotes f2 from by simp [escQuotes, hc],
        List.cons_append, parseGo_qd_other c _ _ hc, ih (c :: acc)]
      simp

/-- A field for which QUOTE_MINIMAL does not quote contains neither the
delimiter, nor a quote, nor a line-terminator character. -/
theorem needsQuote_false_spec {f : PyStr} (h : needsQuote f = false) :
    ',' ∉ f ∧ '"' ∉ f ∧ '\r' ∉ f ∧ '\n' ∉ f := by
  have key : ∀ c ∈ f, (c == ',' || c == '"' || c == '\r' || c == '\n') = true → False := by
    intro c hc hp
    have h2 : needsQuote f = true := by
      simp only [needsQuote, List.any_eq_true]
      exact ⟨c, hc, hp⟩
    rw [h] at h2
    exact Bool.noConfusion h2
  exact ⟨fun hm => key ',' hm (by decide), fun hm => key '"' hm (by decide),
    fun hm => key '\r' hm (by decide), fun hm => key '\n' hm (by decide)⟩

/-- An encoded field followed by a comma parses back to the field. -/
theorem parseGo_sf_encField_comma (f : PyStr) (rest : List Char) :
    parseGo .sf [] (encField f ++ ',' :: rest) = f :: parseGo .sf [] rest := by
  unfold encField
  by_cases hq : needsQuote f
  · rw [if_pos hq]
    have : ('"' :: (escQuotes f ++ ['"'])) ++ ',' :: rest =
        '"' :: (escQuotes f ++ '"' :: (',' :: rest)) := by simp
    rw [this]
    simp only [parseGo, if_pos rfl]
    rw [parseGo_qd_escQuotes f [] (',' :: rest)]
    simp [parseGo]
  · rw [if_neg hq]
    obtain ⟨hcom, hquo, -, -⟩ := needsQuote_false_spec (by simpa using hq)
    cases f with
    | nil => simp [parseGo]
    | cons c f2 =>
      have hc1 : c ≠ '"' := by
        rintro rfl
        exact hquo (List.mem_cons_self _ _)
      have hc2 : c ≠ ',' := by
        rintro rfl
        exact hcom (List.mem_cons_self _ _)
      rw [List.cons_append]
      simp only [parseGo, if_neg hc1, if_neg hc2]
      rw [parseGo_unq_comma f2 [c] rest (fun hm => hcom (List.mem_cons_of_mem c hm))]
      simp

/-- An encoded field at the end of the line parses back to the field. -/
theorem parseGo_sf_encField_last (f : PyStr) :
    parseGo .sf [] (encField f) = [f] := by
  unfold encField
  by_cases hq : needsQuote f
  · rw [if_pos hq]
    have : '"' :: (escQuotes f ++ ['"']) = '"' :: (escQuotes f ++ '"' :: []) := rfl
    rw [this]
    simp only [parseGo, if_pos rfl]
    rw [parseGo_qd_escQuotes f [] []]
    simp [parseGo]
  · rw [if_neg hq]
    obtain ⟨hcom, hquo, -, -⟩ := needsQuote_false_spec (by simpa using hq)
    cases f with
    | nil => simp [parseGo]
    | cons c f2 =>
      have hc1 : c ≠ '"' := by
        rintro rfl
        exact hquo (List.mem_cons_self _ _)
      have hc2 : c ≠ ',' := by
        rintro rfl
        exact hcom (List.mem_cons_self _ _)
      simp only [parseGo, if_neg hc1, if_neg hc2]
      rw [parseGo_unq_last f2 [c] (fun hm => hcom (List.mem_cons_of_mem c hm))]
      simp

/-- A three-field encoded row parses back to its fields. -/
theorem parseLine_encRow3 (a b c : PyStr) :
    parseLine (encRow [a, b, c]) = [a, b, c] := by
  have hne : encRow [a, b, c] ≠ [] := by
    show encField a ++ ',' :: encRow [b, c] ≠ []
    simp
  rw [parseLine, if_neg hne]
  show parseGo .sf [] (encField a ++ ',' :: (encField b ++ ',' :: encField c)) = _
  rw [parseGo_sf_encField_comma, parseGo_sf_encField_comma, parseGo_sf_encField_last]

/-- A character other than CR passes through newline translation. -/
theorem univNewlines_cons_ne (c : Char) (t : List Char) (h : c ≠ '\r') :
    univNewlines (c :: t) = c :: univNewlines t := by
  cases t with
  | nil => simp [univNewlines, h]
  | cons c2 t2 => simp [univNewlines, h]

/-- A CRLF pair becomes a single LF. -/
theorem univNewlines_crlf (t : List Char) :
    univNewlines ('\r' :: '\n' :: t) = '\n' :: univNewlines t := by
  simp [univNewlines]

/-- Newline translation across a CR-free prefix followed by CRLF. -/
theorem univNewlines_append_crlf (x y : List Char) (h : '\r' ∉ x) :
    univNewlines (x ++ '\r' :: '\n' :: y) = x ++ '\n' :: univNewlines y := by
  induction x with
  | nil => simpa using univNewlines_crlf y
  | cons c x2 ih =>
    have hc : c ≠ '\r' := by
      rintro rfl
      exact h (List.mem_cons_self _ _)
    have ih2 := ih (fun hm => h (List.mem_cons_of_mem c hm))
    rw [List.cons_append, univNewlines_cons_ne c _ hc, ih2, List.cons_append]

/-- Splitting at the first LF after an LF-free prefix. -/
theorem splitNl_append (x y : List Char) (h : '\n' ∉ x) :
    splitNl (x ++ '\n' :: y) = x :: splitNl y := by
  induction x with
  | nil => simp [splitNl]
  | cons c x2 ih =>
    have hc : c ≠ '\n' := by
      rintro rfl
      exact h (List.mem_cons_self _ _)
    have ih2 := ih (fun hm => h (List.mem_cons_of_mem c hm))
    rw [List.cons_append]
    simp only [splitNl, if_neg hc]
    rw [ih2]

/-- Every character of an escaped field body comes from the field or is a
quote. -/
theorem mem_escQuotes {c : Char} {f : PyStr} (h : c ∈ escQuotes f) :
    c ∈ f ∨ c = '"' := by
  induction f with
  | nil => cases h
  | cons d f2 ih =>
    by_cases hd : d = '"'
    · subst hd
      simp only [escQuotes, if_pos rfl] at h
      rcases List.mem_cons.mp h with rfl | h2
      · exact Or.inr rfl
      rcases List.mem_cons.mp h2 with rfl | h3
      · exact Or.inr rfl
      rcases ih h3 with h4 | h4
      · exact Or.inl (List.mem_cons_of_mem _ h4)
      · exact Or.inr h4
    · simp only [escQuotes, if_neg hd] at h
      rcases List.mem_cons.mp h with rfl | h2
      · exact Or.inl (List.mem_cons_self _ _)
      rcases ih h2 with h4 | h4
      · exact Or.inl (List.mem_cons_of_mem _ h4)
      · exact Or.inr h4

/-- Every character of an encoded field comes from the field or is a
quote. -/
theorem mem_encField {c : Char} {f : PyStr} (h : c ∈ encField f) :
    c ∈ f ∨ c = '"' := by
  unfold encField at h
  by_cases hq : needsQuote f
  · rw [if_pos hq] at h
    rcases List.mem_cons.mp h with rfl | h2
    · exact Or.inr rfl
    rcases List.mem_append.mp h2 with h3 | h4
    · exact mem_escQuotes h3
    · rcases List.mem_singleton.mp h4 with rfl
      exact Or.inr rfl
  · rw [if_neg hq] at h
    exact Or.inl h

/-- Every character of an encoded three-field row comes from one of the
fields or is a comma or a quote. -/
theorem mem_contactRow {c : Char} {ct : Contact} (h : c ∈ contactRow ct) :
    c ∈ ct.fullName ∨ c ∈ ct.phone ∨ c ∈ ct.email ∨ c = ',' ∨ c = '"' := by
  have h2 : c ∈ encField ct.fullName ++ ',' :: (encField ct.phone ++ ',' :: encField ct.email) := h
  rcases List.mem_append.mp h2 with h3 | h3
  · rcases mem_encField h3 with h4 | h4
    · exact Or.inl h4
    · exact Or.inr (Or.inr (Or.inr (Or.inr h4)))
  rcases List.mem_cons.mp h3 with rfl | h4
  · exact Or.inr (Or.inr (Or.inr (Or.inl rfl)))
  rcases List.mem_append.mp h4 with h5 | h5
  · rcases mem_encField h5 with h6 | h6
    · exact Or.inr (Or.inl h6)
    · exact Or.inr (Or.inr (Or.inr (Or.inr h6)))
  rcases List.mem_cons.mp h5 with rfl | h6
  · exact Or.inr (Or.inr (Or.inr (Or.inl rfl)))
  rcases mem_encField h6 with h7 | h7
  · exact Or.inr (Or.inr (Or.inl h7))
  · exact Or.inr (Or.inr (Or.inr (Or.inr h7)))

/-- A row encoded from CRLF-free fields contains no CR and no LF. -/
theorem contactRow_no_crlf {ct : Contact}
    (h : noCRLF ct.fullName ∧ noCRLF ct.phone ∧ noCRLF ct.email) :
    '\r' ∉ contactRow ct ∧ '\n' ∉ contactRow ct := by
  obtain ⟨⟨hn1, hn2⟩, ⟨hp1, hp2⟩, ⟨he1, he2⟩⟩ := h
  constructor
  · intro hm
    rcases mem_contactRow hm with h1 | h1 | h1 | h1 | h1
    · exact hn1 h1
    · exact hp1 h1
    · exact he1 h1
    · exact absurd h1 (by decide)
    · exact absurd h1 (by decide)
  · intro hm
    rcases mem_contactRow hm with h1 | h1 | h1 | h1 | h1
    · exact hn2 h1
    · exact hp2 h1
    · exact he2 h1
    · exact absurd h1 (by decide)
    · exact absurd h1 (by decide)

/-- Newline translation of the written data rows: each CRLF terminator
becomes LF, and CR-free row bodies pass through unchanged. -/
theorem univNewlines_body (S : List Contact)
    (h : ∀ ct ∈ S, '\r' ∉ contactRow ct) :
    univNewlines ((S.map (fun ct => contactRow ct ++ crlf)).flatten) =
      (S.map (fun ct => contactRow ct ++ ['\n'])).flatten := by
  induction S with
  | nil => rfl
  | cons ct S2 ih =>
    have h1 : '\r' ∉ contactRow ct := h ct (List.mem_cons_self _ _)
    have ih2 := ih (fun x hx => h x (List.mem_cons_of_mem ct hx))
    simp only [List.map_cons, List.flatten_cons]
    have e : (contactRow ct ++ crlf) ++ (S2.map (fun c => contactRow c ++ crlf)).flatten =
        contactRow ct ++ '\r' :: '\n' :: (S2.map (fun c => contactRow c ++ crlf)).flatten := by
      simp [crlf]
    rw [e, univNewlines_append_crlf _ _ h1, ih2]
    simp

/-- Splitting the translated data rows on LF recovers the rows, plus the
empty trailing part after the final terminator. -/
theorem splitNl_body (S : List Contact)
    (h : ∀ ct ∈ S, '\n' ∉ contactRow ct) :
    splitNl ((S.map (fun ct => contactRow ct ++ ['\n'])).flatten) =
      S.map contactRow ++ [[]] := by
  induction S with
  | nil => rfl
  | cons ct S2 ih =>
    have h1 : '\n' ∉ contactRow ct := h ct (List.mem_cons_self _ _)
    have ih2 := ih (fun x hx => h x (List.mem_cons_of_mem ct hx))
    simp only [List.map_cons, List.flatten_cons]
    have e : (contactRow ct ++ ['\n']) ++ (S2.map (fun c => contactRow c ++ ['\n'])).flatten =
        contactRow ct ++ '\n' :: (S2.map (fun c => contactRow c ++ ['\n'])).flatten := by
      simp
    rw [e, splitNl_append _ _ h1, ih2]
    rfl

/-- The last part of a split that ends with an explicit singleton. -/
theorem getLast?_append_singleton (L : List (List Char)) (x : List Char) :
    (L ++ [x]).getLast? = some x := by
  induction L with
  | nil => rfl
  | cons a L2 ih =>
    cases L2 with
    | nil => rfl
    | cons b L3 =>
      rw [List.cons_append, List.cons_append, List.getLast?_cons_cons]
      simpa using ih

/-- fileLines on a text whose split ends with the empty trailing part drops
exactly that part. -/
theorem fileLines_eq (t : List Char) (L : List (List Char))
    (h : splitNl t = L ++ [[]]) : fileLines t = L := by
  unfold fileLines
  rw [h, if_pos (getLast?_append_singleton L [])]
  simp

/-- Decoding the parsed three-field rows rebuilds the contacts. -/
theorem decode_rows (S : List Contact) :
    ((S.map (fun ct => [ct.fullName, ct.phone, ct.email])).filter
      (fun r => !r.isEmpty)).filterMap rowToContact = S := by
  induction S with
  | nil => rfl
  | cons ct S2 ih => simp [rowToContact, ih]

/-- C2: decoding the text written for any sequence of valid contacts whose
fields contain no CR and no LF (commas and quotes are handled by the
quoting rule) yields an equal sequence: same length, same order, same
field values. -/
theorem save_load_round_trip (S : List Contact)
    (hclean : ∀ ct ∈ S, noCRLF ct.fullName ∧ noCRLF ct.phone ∧ noCRLF ct.email)
    (_hvalid : ∀ ct ∈ S, is_valid_phone ct.phone = true ∧ is_valid_email ct.email = true) :
    load_contacts (some (save_contacts S)) = S := by
  have hrowsR : ∀ ct ∈ S, '\r' ∉ contactRow ct :=
    fun ct hct => (contactRow_no_crlf (hclean ct hct)).1
  have hrowsN : ∀ ct ∈ S, '\n' ∉ contactRow ct :=
    fun ct hct => (contactRow_no_crlf (hclean ct hct)).2
  have hscrut : (fileLines (univNewlines (save_contacts S))).map parseLine =
      fieldnames :: S.map (fun ct => [ct.fullName, ct.phone, ct.email]) := by
    unfold save_contacts
    have e1 : encRow fieldnames ++ crlf ++ (S.map (fun c => contactRow c ++ crlf)).flatten =
        encRow fieldnames ++ '\r' :: '\n' :: (S.map (fun c => contactRow c ++ crlf)).flatten := by
      simp [crlf]
    rw [e1, univNewlines_append_crlf _ _ (by decide), univNewlines_body S hrowsR]
    have e2 : splitNl (encRow fieldnames ++ '\n' ::
        (S.map (fun ct => contactRow ct ++ ['\n'])).flatten) =
        (encRow fieldnames :: S.map contactRow) ++ [[]] := by
      rw [splitNl_append _ _ (by decide), splitNl_body S hrowsN]
      rfl
    rw [fileLines_eq _ _ e2]
    simp only [List.map_cons, List.map_map]
    have e3 : parseLine (encRow fieldnames) = fieldnames := parseLine_encRow3 _ _ _
    have e4 : (parseLine ∘ contactRow) = fun ct => [ct.fullName, ct.phone, ct.email] :=
      funext fun ct => parseLine_encRow3 ct.fullName ct.phone ct.email
    rw [e3, e4]
  show decodeText (save_contacts S) = S
  unfold decodeText
  rw [hscrut]
  exact decode_rows S

/-- Witness for C2: a concrete two-contact store, one field containing a
comma and a quote, survives the save and load round trip. -/
theorem save_load_round_trip_w :
    load_contacts (some (save_contacts
      [Contact.mk ("Ann Lee".toList) ("(555)123-4567".toList) ("a@b.com".toList),
       Contact.mk ("Bo, \"Q\" Lee".toList) ("(111)222-3333".toList) ("b@c.org".toList)])) =
    [Contact.mk ("Ann Lee".toList) ("(555)123-4567".toList) ("a@b.com".toList),
     Contact.mk ("Bo, \"Q\" Lee".toList) ("(111)222-3333".toList) ("b@c.org".toList)] :=
  save_load_round_trip
    [Contact.mk ("Ann Lee".toList) ("(555)123-4567".toList) ("a@b.com".toList),
     Contact.mk ("Bo, \"Q\" Lee".toList) ("(111)222-3333".toList) ("b@c.org".toList)]
    (by decide) (by decide)
